import Mathlib

/-!
Verification of the correction-extraction and alignment engine of the
tutor-Jimmy repository (a grammar-correction web UI).

The embedding below models, over lists of characters:

* `src/src/lib/diffAnalysis.ts` — the diff-to-span extractor
  (`analyzeDifferences`, `determineErrorType`, `areWordsSimilar`,
  `isGrammarChange`);
* `src/src/lib/xmlCorrectionParser.ts` — the inline-markup parser
  (`parseXmlWithRegex`, `recalculatePositions`, and the text fields of
  `parseXmlCorrections`);
* `src/src/components/ErrorHighlight.tsx` — the render-time span aligner
  (`renderTextWithHighlights`).

JavaScript strings are modelled as `List Char`; JavaScript numbers used as
indices are modelled as `Int` (they can go negative through stale-offset
arithmetic).  `String.prototype.slice` / `indexOf` / `replace` are modelled
by `jsSlice` / `subIndex` / `replaceFirst` below.
-/

set_option maxHeartbeats 1000000
set_option maxRecDepth 100000

namespace TutorJimmy

/-- JavaScript `String.prototype.slice` index resolution: a negative index
counts from the end of the string, and the result is clamped to
`[0, len]`. -/
def jsResolve (len : Nat) (i : Int) : Nat :=
  if i < 0 then len - min len i.natAbs else min i.toNat len

/-- JavaScript `s.slice(a, b)` on a string modelled as a character list. -/
def jsSlice (s : List Char) (a b : Int) : List Char :=
  (s.take (jsResolve s.length b)).drop (jsResolve s.length a)

/-- JavaScript `s.indexOf(pat)`: index of the first occurrence of `pat` in
`s`, or `none` where the source gets `-1`.  `indexOf("")` is `0`, as in
JavaScript. -/
def subIndex (pat : List Char) : List Char → Option Nat
  | [] => if pat.isPrefixOf ([] : List Char) then some 0 else none
  | c :: t =>
    if pat.isPrefixOf (c :: t) then some 0 else (subIndex pat t).map (· + 1)

/-- JavaScript `s.replace(target, repl)` with a plain-string `target`:
replaces the first occurrence of `target`, or returns `s` unchanged when
there is none.  (The `$`-substitution JavaScript performs inside a string
replacement is not modelled; the replacement texts this program passes are
tag inner texts, treated literally.) -/
def replaceFirst (s target repl : List Char) : List Char :=
  match subIndex target s with
  | some i => s.take i ++ repl ++ s.drop (i + target.length)
  | none => s

/-- The `pat` occurs in `s` at position `p`. -/
def occursAt (pat s : List Char) (p : Nat) : Prop :=
  pat.isPrefixOf (s.drop p)

instance (pat s : List Char) (p : Nat) : Decidable (occursAt pat s p) := by
  unfold occursAt; infer_instance

/-- The `Correction` record of the source (`diffAnalysis.ts`,
`xmlCorrectionParser.ts`, `ErrorHighlight.tsx` all declare the same
interface). -/
structure Correction where
  original : List Char
  corrected : List Char
  type : List Char
  explanation : Option (List Char)
  startIndex : Int
  endIndex : Int
  deriving DecidableEq, Repr

/-- Output segments of the render-time aligner: either a literal slice of
the input text or a highlighted (annotated) correction, whose displayed
original slice is `c.original`. -/
inductive Seg where
  | lit : List Char → Seg
  | ann : Correction → Seg
  deriving DecidableEq, Repr

/-- The slice of the input text a segment accounts for (for an annotated
segment, the `original` text it highlights). -/
def segText : Seg → List Char
  | Seg.lit s => s
  | Seg.ann c => c.original

/-- Concatenation of the text carried by a segment sequence. -/
def segConcat (segs : List Seg) : List Char :=
  (segs.map segText).flatten

/-- What a segment displays: the literal slice, or the highlighted
`(original, corrected)` pair of an annotated segment. -/
def segView : Seg → List Char ⊕ (List Char × List Char)
  | Seg.lit s => Sum.inl s
  | Seg.ann c => Sum.inr (c.original, c.corrected)

/-- State of the aligner loop in `renderTextWithHighlights`
(`ErrorHighlight.tsx`): the `remainingText` view, the `processedLength`
cursor, the segments emitted so far, and a flag recording whether some
correction's slice test succeeded at a negative expected offset (the one
situation in which the JavaScript negative-index `slice` semantics drops
characters). -/
structure AlignState where
  remaining : List Char
  processed : Int
  segs : List Seg
  negMatch : Bool
  deriving Repr

/-- The slice of `remaining` the aligner compares against
`correction.original` (`actualTextAtPosition` in the source). -/
def actualSlice (st : AlignState) (c : Correction) : List Char :=
  jsSlice st.remaining (c.startIndex - st.processed)
    (c.startIndex - st.processed + c.original.length)

/-- One iteration of the `sortedCorrections.forEach` loop of
`renderTextWithHighlights`. -/
def alignOne (st : AlignState) (c : Correction) : AlignState :=
  let exp : Int := c.startIndex - st.processed
  if actualSlice st c = c.original then
    { remaining := jsSlice st.remaining (exp + c.original.length) st.remaining.length
      processed := st.processed + exp + c.original.length
      segs := st.segs ++
        (if 0 < exp then [Seg.lit (jsSlice st.remaining 0 exp)] else []) ++ [Seg.ann c]
      negMatch := st.negMatch || decide (exp < 0) }
  else
    match subIndex c.original st.remaining with
    | some f =>
      { remaining := st.remaining.drop (f + c.original.length)
        processed := st.processed + (f : Int) + c.original.length
        segs := st.segs ++
          (if 0 < f then [Seg.lit (st.remaining.take f)] else []) ++ [Seg.ann c]
        negMatch := st.negMatch }
    | none => st

/-- Stable insertion of a correction into a list sorted by `startIndex`
(the element is placed before later-inserted elements with an equal key,
matching the stability of `Array.prototype.sort`). -/
def insertByStart (c : Correction) : List Correction → List Correction
  | [] => [c]
  | d :: ds =>
    if c.startIndex ≤ d.startIndex then c :: d :: ds else d :: insertByStart c ds

/-- The `[...corrections].sort((a, b) => a.startIndex - b.startIndex)` step,
as a stable sort by `startIndex`. -/
def sortByStart : List Correction → List Correction
  | [] => []
  | c :: cs => insertByStart c (sortByStart cs)

/-- Runs the whole aligner loop of `renderTextWithHighlights` and returns
its final state. -/
def alignRun (text : List Char) (corrections : List Correction) : AlignState :=
  (sortByStart corrections).foldl alignOne
    { remaining := text, processed := 0, segs := [], negMatch := false }

/-- `renderTextWithHighlights` of `ErrorHighlight.tsx`, as the sequence of
segments it emits: the early return for an empty correction list, then the
aligner loop, then the final literal for whatever text remains. -/
def renderTextWithHighlights (text : List Char) (corrections : List Correction) :
    List Seg :=
  if corrections = [] then [Seg.lit text]
  else
    let st := alignRun text corrections
    st.segs ++ (if st.remaining.length > 0 then [Seg.lit st.remaining] else [])

/-! ## diffAnalysis.ts -/

/-- ASCII model of JavaScript `toLowerCase()` applied character-wise. -/
def toLowerStr (s : List Char) : List Char := s.map Char.toLower

/-- The test `/[.,;:!?]/.test(s)` of `determineErrorType`. -/
def hasPunct (s : List Char) : Bool :=
  s.any fun c => c = '.' || c = ',' || c = ';' || c = ':' || c = '!' || c = '?'

/-- `areWordsSimilar` of `diffAnalysis.ts`: length difference at most 2 and
position-aligned matching characters over the shorter length exceeding 0.6.
The floating comparison `commonChars / minLength > 0.6` is modelled exactly
by the cross-multiplied `5 * commonChars > 3 * minLength` (for the string
lengths a double can distinguish the two agree, and `0/0 = NaN > 0.6` is
false just as `0 > 0` is). -/
def areWordsSimilar (word1 word2 : List Char) : Bool :=
  if ((word1.length : Int) - word2.length).natAbs ≤ 2 then
    let minLength := min word1.length word2.length
    let commonChars := (word1.zip word2).countP fun p => p.1 = p.2
    5 * commonChars > 3 * minLength
  else
    false

/-- JavaScript `\w` word characters (for the `\b` boundaries in the grammar
patterns). -/
def wordChar (c : Char) : Bool := c.isAlphanum || c = '_'

/-- The test of one case-insensitive whole-word regex `/\bw\b/i` against
`s`: some position carries `w` (case-insensitively) with non-word or
string-end context on both sides. -/
def containsWordCI (w s : List Char) : Bool :=
  (List.range (s.length + 1)).any fun i =>
    decide (toLowerStr ((s.drop i).take w.length) = w) &&
    (decide (i = 0) || !wordChar (s.getD (i - 1) ' ')) &&
    (decide (s.length ≤ i + w.length) || !wordChar (s.getD (i + w.length) ' '))

/-- The closed-class words of the five `grammarPatterns` alternation
regexes of `isGrammarChange`. -/
def grammarWords : List (List Char) :=
  ["is", "are", "was", "were", "am",
   "a", "an", "the",
   "he", "she", "it", "they", "we", "you", "i",
   "has", "have", "had",
   "do", "does", "did"].map String.toList

/-- `isGrammarChange` of `diffAnalysis.ts`: some grammar pattern matches
the original or the corrected string. -/
def isGrammarChange (original corrected : List Char) : Bool :=
  grammarWords.any fun w => containsWordCI w original || containsWordCI w corrected

/-- `determineErrorType` of `diffAnalysis.ts`: the first-match-wins cascade
punctuation → capitalization → spelling → grammar → word choice. -/
def determineErrorType (original corrected : List Char) : List Char :=
  let originalLower := toLowerStr original
  let correctedLower := toLowerStr corrected
  if hasPunct original || hasPunct corrected then "punctuation".toList
  else if originalLower = correctedLower then "capitalization".toList
  else if areWordsSimilar originalLower correctedLower then "spelling".toList
  else if isGrammarChange original corrected then "grammar".toList
  else "word choice".toList

/-- One change object produced by the word diff: a text run flagged as
added, removed, or (neither) unchanged. -/
structure DiffPart where
  value : List Char
  added : Bool
  removed : Bool
  deriving DecidableEq, Repr

/-- Result record of `analyzeDifferences` (the source interface
`DiffAnalysisResult` has exactly these two fields). -/
structure DiffAnalysisResult where
  corrections : List Correction
  originalText : List Char
  deriving DecidableEq, Repr

/-- The placeholder explanation text the extractor writes on every
correction. -/
def missingExplanation : List Char := "Missing explanation".toList

/-- The correction-building loop of `analyzeDifferences`: walks the diff
parts with a cursor `currentIndex` into the original text; a removed part
immediately followed by an added part is a replacement (the added part is
then skipped), a lone removed part a deletion, an added part an insertion,
an unchanged part only advances the cursor. -/
def buildCorrections : List DiffPart → Nat → List Correction
  | [], _ => []
  | [p], currentIndex =>
    if p.removed then
      [{ original := p.value, corrected := [], type := "deletion".toList,
         explanation := some missingExplanation,
         startIndex := (currentIndex : Int),
         endIndex := (currentIndex : Int) + p.value.length }]
    else if p.added then
      [{ original := [], corrected := p.value, type := "insertion".toList,
         explanation := some missingExplanation,
         startIndex := (currentIndex : Int), endIndex := (currentIndex : Int) }]
    else []
  | p :: q :: rest, currentIndex =>
    if p.removed then
      if q.added then
        { original := p.value, corrected := q.value,
          type := determineErrorType p.value q.value,
          explanation := some missingExplanation,
          startIndex := (currentIndex : Int),
          endIndex := (currentIndex : Int) + p.value.length } ::
          buildCorrections rest (currentIndex + p.value.length)
      else
        { original := p.value, corrected := [], type := "deletion".toList,
          explanation := some missingExplanation,
          startIndex := (currentIndex : Int),
          endIndex := (currentIndex : Int) + p.value.length } ::
          buildCorrections (q :: rest) (currentIndex + p.value.length)
    else if p.added then
      { original := [], corrected := p.value, type := "insertion".toList,
        explanation := some missingExplanation,
        startIndex := (currentIndex : Int), endIndex := (currentIndex : Int) } ::
        buildCorrections (q :: rest) currentIndex
    else
      buildCorrections (q :: rest) (currentIndex + p.value.length)

/-- `analyzeDifferences` of `diffAnalysis.ts`, parameterised by the word
diff it calls (`Diff.diffWords` of the external `diff` npm package): the
identical-texts early return, then the correction-building loop over the
diff output. -/
def analyzeDifferencesWith (diffWords : List Char → List Char → List DiffPart)
    (originalText correctedText : List Char) : DiffAnalysisResult :=
  if originalText = correctedText then
    { corrections := [], originalText := originalText }
  else
    { corrections := buildCorrections (diffWords originalText correctedText) 0
      originalText := originalText }

/-- Modelled from the spec: the word-level diff of the external `diff` npm
package (`Diff.diffWords`), which is not part of this repository's sources.
Tokenisation follows spec §4.2 — "tokens are runs of non-whitespace plus
the whitespace runs between them" — and the edit script is a minimal one
(longest common subsequence of tokens), with removed runs emitted before
the added run they pair with, and consecutive runs of the same kind merged
into one part, as the `diff` package does. -/
def wsChar (c : Char) : Bool :=
  c = ' ' || c = '\t' || c = '\n' || c = '\r' || c = '\x0b' || c = '\x0c'

/-- Splits a text into maximal runs of whitespace / non-whitespace
characters (the diffable tokens of spec §4.2); the fuel bounds the number
of runs, and the text's length always suffices. -/
def tokenizeWordsAux : Nat → List Char → List (List Char)
  | 0, _ => []
  | _ + 1, [] => []
  | fuel + 1, c :: rest =>
    let run := rest.takeWhile fun x => wsChar x = wsChar c
    (c :: run) :: tokenizeWordsAux fuel (rest.drop run.length)

/-- Splits a text into its whitespace / non-whitespace token runs. -/
def tokenizeWords (s : List Char) : List (List Char) :=
  tokenizeWordsAux s.length s

/-- Length of a longest common subsequence of two token lists; the fuel
bounds the recursion depth, and the sum of the lengths always suffices. -/
def lcsLenAux : Nat → List (List Char) → List (List Char) → Nat
  | 0, _, _ => 0
  | _ + 1, [], _ => 0
  | _ + 1, _ :: _, [] => 0
  | fuel + 1, a :: as, b :: bs =>
    if a = b then lcsLenAux fuel as bs + 1
    else max (lcsLenAux fuel as (b :: bs)) (lcsLenAux fuel (a :: as) bs)

/-- Length of a longest common subsequence of two token lists. -/
def lcsLen (xs ys : List (List Char)) : Nat :=
  lcsLenAux (xs.length + ys.length) xs ys

/-- A minimal edit script between two token lists, one token per part,
removals emitted before insertions within a change region; the fuel bounds
the recursion depth, and the sum of the lengths always suffices. -/
def diffTokensAux : Nat → List (List Char) → List (List Char) → List DiffPart
  | 0, _, _ => []
  | _ + 1, [], [] => []
  | fuel + 1, [], b :: bs => ⟨b, true, false⟩ :: diffTokensAux fuel [] bs
  | fuel + 1, a :: as, [] => ⟨a, false, true⟩ :: diffTokensAux fuel as []
  | fuel + 1, a :: as, b :: bs =>
    if a = b then ⟨a, false, false⟩ :: diffTokensAux fuel as bs
    else if lcsLen as (b :: bs) ≥ lcsLen (a :: as) bs then
      ⟨a, false, true⟩ :: diffTokensAux fuel as (b :: bs)
    else
      ⟨b, true, false⟩ :: diffTokensAux fuel (a :: as) bs

/-- A minimal edit script between two token lists. -/
def diffTokens (xs ys : List (List Char)) : List DiffPart :=
  diffTokensAux (xs.length + ys.length) xs ys

/-- Merges consecutive parts of the same kind into a single part. -/
def mergeParts : List DiffPart → List DiffPart
  | [] => []
  | p :: rest =>
    match mergeParts rest with
    | [] => [p]
    | q :: qs =>
      if p.added = q.added ∧ p.removed = q.removed then
        ⟨p.value ++ q.value, p.added, p.removed⟩ :: qs
      else p :: q :: qs

/-- Modelled from the spec: `Diff.diffWords` — word-granularity minimal
edit script over whitespace/non-whitespace token runs. -/
def diffWordsModel (a b : List Char) : List DiffPart :=
  mergeParts (diffTokens (tokenizeWords a) (tokenizeWords b))

/-- `analyzeDifferences` with the modelled `Diff.diffWords`. -/
def analyzeDifferences (originalText correctedText : List Char) : DiffAnalysisResult :=
  analyzeDifferencesWith diffWordsModel originalText correctedText

/-! ## xmlCorrectionParser.ts -/

/-- Result record of the markup parser (source interface
`ParsedXmlResult`). -/
structure ParsedXmlResult where
  correctedText : List Char
  corrections : List Correction
  originalText : List Char
  deriving DecidableEq, Repr

/-- One match of the correction-tag regex of `parseXmlWithRegex`
(`match.index`, the whole matched text, the three mandatory attribute
groups, the optional explanation group, and the inner text group). -/
structure TagMatch where
  index : Nat
  full : List Char
  original : List Char
  corrected : List Char
  type : List Char
  explanation : Option (List Char)
  textContent : List Char
  deriving DecidableEq, Repr

/-- The closing tag literal of the correction-tag regex. -/
def closeTag : List Char := "</correction>".toList

/-- A character the regex metacharacter `.` (no `s` flag) matches:
anything but a line terminator. -/
def dotChar (c : Char) : Bool :=
  !(c = '\n' || c = '\r' || c.val = 0x2028 || c.val = 0x2029)

/-- Matches a literal at position `p` of `s`, returning the position after
it. -/
def litAt (s lit : List Char) (p : Nat) : Option Nat :=
  if lit.isPrefixOf (s.drop p) then some (p + lit.length) else none

/-- Matches `\s+` at position `p` (the run is maximal; the regex cannot
give any of it back because every continuation starts with a non-space
letter). -/
def ws1 (s : List Char) (p : Nat) : Option Nat :=
  let n := ((s.drop p).takeWhile wsChar).length
  if n = 0 then none else some (p + n)

/-- Matches `([^"]*?)"`: the (lazy, hence shortest) run up to the next
double quote, returning it and the position after the quote. -/
def quoted (s : List Char) (p : Nat) : Option (List Char × Nat) :=
  let rest := s.drop p
  let content := rest.takeWhile fun c => !(c = '"')
  if content.length < rest.length then some (content, p + content.length + 1)
  else none

/-- Matches one attribute piece of the regex: `\s+`, then the literal
(`name="`), then the quoted value. -/
def attrAt (s lit : List Char) (p : Nat) : Option (List Char × Nat) :=
  (ws1 s p).bind fun p1 => (litAt s lit p1).bind fun p2 => quoted s p2

/-- Matches `[^>]*>`: everything up to and including the next `>` (maximal
run of non-`>` characters, then the mandatory `>`). -/
def toGt (s : List Char) (p : Nat) : Option Nat :=
  let content := (s.drop p).takeWhile fun c => !(c = '>')
  if p + content.length < s.length then some (p + content.length + 1) else none

/-- Matches `(.*?)</correction>` from position `p`: the first position `j`
carrying the closing tag such that no line terminator separates `p` from
`j` (the lazy `.`-run cannot cross a line terminator, and stops at the
first closing tag). -/
def lazyClose (s : List Char) (p : Nat) : Option Nat :=
  (List.range' p (s.length + 1 - p)).find? fun j =>
    closeTag.isPrefixOf (s.drop j) && ((s.drop p).take (j - p)).all dotChar

/-- Tries the correction-tag regex of `parseXmlWithRegex` anchored at
position `i` of `s`:
`<correction\s+original="([^"]*?)"\s+corrected="([^"]*?)"\s+type="([^"]*?)"(?:\s+explanation="([^"]*?)")?[^>]*>(.*?)<\/correction>`.
The greedy optional explanation group is tried first with the group
present, and on failure of the remainder without it.  `finishTag` is the
common tail `[^>]*>(.*?)</correction>` of the pattern, building the match
record. -/
def finishTag (s : List Char) (i : Nat) (o c t : List Char)
    (expl : Option (List Char)) (p4 : Nat) : Option TagMatch :=
  (toGt s p4).bind fun p5 =>
  (lazyClose s p5).map fun j =>
    { index := i
      full := (s.drop i).take (j + closeTag.length - i)
      original := o, corrected := c, type := t
      explanation := expl
      textContent := (s.drop p5).take (j - p5) }

/-- The attribute-matching head of the regex anchored at `i`, composed
with `finishTag`; the two `finishTag` calls are the two alternatives of
the optional explanation group. -/
def tryMatchAt (s : List Char) (i : Nat) : Option TagMatch :=
  (litAt s "<correction".toList i).bind fun p0 =>
  (attrAt s "original=\"".toList p0).bind fun op =>
  (attrAt s "corrected=\"".toList op.2).bind fun cp =>
  (attrAt s "type=\"".toList cp.2).bind fun tp =>
  match attrAt s "explanation=\"".toList tp.2 with
  | some ep =>
    match finishTag s i op.1 cp.1 tp.1 (some ep.1) ep.2 with
    | some m => some m
    | none => finishTag s i op.1 cp.1 tp.1 none tp.2
  | none => finishTag s i op.1 cp.1 tp.1 none tp.2

/-- First regex match at or after position `pos` (the engine retries the
pattern at successive start positions); `k` counts the candidate start
positions left. -/
def findFromAux (s : List Char) : Nat → Nat → Option TagMatch
  | 0, _ => none
  | k + 1, pos =>
    match tryMatchAt s pos with
    | some m => some m
    | none => findFromAux s k (pos + 1)

/-- First regex match of the correction-tag regex at or after `pos`. -/
def findFrom (s : List Char) (pos : Nat) : Option TagMatch :=
  findFromAux s (s.length + 1 - pos) pos

/-- All matches found by the `while ((match = correctionRegex.exec(xmlText)))`
loop: repeated search, each continuing after the end of the previous match.
The fuel bounds the number of matches; `s.length + 1` always suffices
because every match is at least one character long. -/
def scanAllAux (s : List Char) : Nat → Nat → List TagMatch
  | 0, _ => []
  | fuel + 1, pos =>
    match findFrom s pos with
    | none => []
    | some m => m :: scanAllAux s fuel (m.index + m.full.length)

/-- All matches of the correction-tag regex over `s`, in order. -/
def scanAll (s : List Char) : List TagMatch :=
  scanAllAux s (s.length + 1) 0

/-- The body of the `while` loop of `parseXmlWithRegex`, one recursive
step per match: records a correction at `match.index - offset`, strips the
match from the running clean text by first-occurrence replacement, and
grows the offset by the stripped markup length.  Also returns a flag that
is true when every replacement hit the match's own (offset-adjusted)
position — when it is false, the first occurrence of the matched text in
the accumulator preceded the match's own copy and the replacement spliced
the wrong place. -/
def regexLoop : List TagMatch → List Char → Int → (List Correction × List Char × Bool)
  | [], cleanText, _ => ([], cleanText, true)
  | m :: rest, cleanText, offset =>
    let startIndex : Int := (m.index : Int) - offset
    let aligned : Bool :=
      match subIndex m.full cleanText with
      | some p => decide ((p : Int) = startIndex)
      | none => false
    let r := regexLoop rest (replaceFirst cleanText m.full m.textContent)
      (offset + ((m.full.length : Int) - (m.textContent.length : Int)))
    ({ original := m.original, corrected := m.corrected, type := m.type
       explanation := match m.explanation with
         | some e => if e = [] then none else some e
         | none => none
       startIndex := startIndex
       endIndex := startIndex + m.textContent.length } :: r.1,
     r.2.1, aligned && r.2.2)

/-- `parseXmlWithRegex` of `xmlCorrectionParser.ts`. -/
def parseXmlWithRegex (xmlText : List Char) : ParsedXmlResult :=
  let r := regexLoop (scanAll xmlText) xmlText 0
  { correctedText := r.2.1, corrections := r.1, originalText := r.2.1 }

/-- `recalculatePositions` of `xmlCorrectionParser.ts`: re-anchors every
correction at the first occurrence of its `original` in the clean text,
defaulting to `[0, len(original))` when it does not occur.  The `xmlText`
argument is unused, as in the source. -/
def recalculatePositions (cleanText : List Char) (corrections : List Correction)
    (xmlText : List Char) : List Correction :=
  corrections.map fun correction =>
    match subIndex correction.original cleanText with
    | some index =>
      { correction with
        startIndex := (index : Int)
        endIndex := (index : Int) + correction.original.length }
    | none =>
      { correction with
        startIndex := 0
        endIndex := (correction.original.length : Int) }

/-- The error-type enumeration of spec §3 (data model of `type`). -/
inductive ErrorType where
  | spelling | grammar | punctuation | capitalization | wordChoice
  | insertion | deletion | unknown
  deriving DecidableEq, Repr

/-- The string label the source uses for each enumerated error type
(`word-choice` is spelt `"word choice"` by `determineErrorType`). -/
def labelString : ErrorType → List Char
  | ErrorType.spelling => "spelling".toList
  | ErrorType.grammar => "grammar".toList
  | ErrorType.punctuation => "punctuation".toList
  | ErrorType.capitalization => "capitalization".toList
  | ErrorType.wordChoice => "word choice".toList
  | ErrorType.insertion => "insertion".toList
  | ErrorType.deletion => "deletion".toList
  | ErrorType.unknown => "unknown".toList

/-- Spec §4.1 rule 1: the string contains a punctuation character from
the set `{.,;:!?}`. -/
def specHasPunct (s : List Char) : Prop :=
  ∃ c ∈ s, c ∈ ['.', ',', ';', ':', '!', '?']

instance (s : List Char) : Decidable (specHasPunct s) := by
  unfold specHasPunct; infer_instance

/-- Spec §4.1 similarity test, on the already-lowercased strings: lengths
differ by at most 2, and the fraction of position-aligned matching
characters over the shorter string's length strictly exceeds 0.6 (as an
exact rational; the fraction is 0 when the shorter length is 0). -/
def specSimilar (w1 w2 : List Char) : Prop :=
  ((w1.length : Int) - (w2.length : Int)).natAbs ≤ 2 ∧
    (((w1.zip w2).countP fun p => p.1 = p.2 : ℚ) / (min w1.length w2.length : ℚ)
      > 0.6)

instance (w1 w2 : List Char) : Decidable (specSimilar w1 w2) := by
  unfold specSimilar; infer_instance

/-- Spec §4.1 rule 4: either string matches one of the closed-class
grammar-word patterns (whole-word, case-insensitive). -/
def specGrammar (original corrected : List Char) : Prop :=
  ∃ w ∈ grammarWords, containsWordCI w original ∨ containsWordCI w corrected

instance (original corrected : List Char) : Decidable (specGrammar original corrected) := by
  unfold specGrammar; infer_instance

/-- The classifier as spec §4.1 words it: the five rules applied in fixed
first-match-wins order. -/
def specClassify (original corrected : List Char) : ErrorType :=
  if specHasPunct original ∨ specHasPunct corrected then ErrorType.punctuation
  else if toLowerStr original = toLowerStr corrected then ErrorType.capitalization
  else if specSimilar (toLowerStr original) (toLowerStr corrected) then ErrorType.spelling
  else if specGrammar original corrected then ErrorType.grammar
  else ErrorType.wordChoice

/-- The string labels of the eight enumerated error types. -/
def labelStrings : List (List Char) :=
  [ErrorType.spelling, ErrorType.grammar, ErrorType.punctuation,
   ErrorType.capitalization, ErrorType.wordChoice, ErrorType.insertion,
   ErrorType.deletion, ErrorType.unknown].map labelString

/-- Two spans do not overlap: no position lies in both half-open
ranges. -/
def disjointSpans (a b : Correction) : Prop :=
  ∀ x : Int, ¬(a.startIndex ≤ x ∧ x < a.endIndex ∧ b.startIndex ≤ x ∧ x < b.endIndex)

/-- A correction list is sorted ascending by `startIndex` and its spans
are pairwise non-overlapping. -/
def spansSortedDisjoint (cs : List Correction) : Prop :=
  cs.Chain' (fun a b => a.startIndex ≤ b.startIndex) ∧ cs.Pairwise disjointSpans

/-- The visible content of an aligner state: what each emitted segment
displays, the remaining text, and the cursor. -/
def stateView (st : AlignState) :
    List (List Char ⊕ (List Char × List Char)) × List Char × Int :=
  (st.segs.map segView, st.remaining, st.processed)

/-- The facts the regex scan guarantees about its match list, relative to
a scan position `q`: matches come at or after `q`, each matched text
really occurs at its index and fits inside `s`, each matched text is some
opening markup, then the inner text, then the closing tag, and the rest of
the list starts after the match. -/
def matchesFrom (s : List Char) : Nat → List TagMatch → Prop
  | _, [] => True
  | q, m :: rest =>
    q ≤ m.index ∧ occursAt m.full s m.index ∧ m.index + m.full.length ≤ s.length ∧
      (∃ pre, m.full = pre ++ m.textContent ++ closeTag) ∧
      matchesFrom s (m.index + m.full.length) rest

/-- Scenario C input text. -/
def textI : List Char := "I have went.".toList

/-- Scenario C correction (correct `startIndex`). -/
def corC : Correction :=
  { original := "have went".toList, corrected := "went".toList,
    type := "grammar".toList, explanation := none, startIndex := 2, endIndex := 11 }

/-- Scenario D correction (`startIndex` wrongly set to 0). -/
def corD : Correction :=
  { original := "have went".toList, corrected := "went".toList,
    type := "grammar".toList, explanation := none, startIndex := 0, endIndex := 11 }

/-- A correction list that makes the aligner drop a character: the second
correction has an empty `original` and a stale `startIndex` below the
cursor, so its slice test succeeds at a negative expected offset. -/
def corsDrop : List Correction :=
  [{ original := "abc".toList, corrected := "x".toList, type := "t".toList,
     explanation := none, startIndex := 0, endIndex := 3 },
   { original := [], corrected := "y".toList, type := "t".toList,
     explanation := none, startIndex := 1, endIndex := 1 }]

/-- Two reconciler inputs carrying the same `original` substring. -/
def corDupA : Correction :=
  { original := "ab".toList, corrected := "x".toList, type := "t".toList,
    explanation := none, startIndex := 5, endIndex := 7 }

/-- Second reconciler input with the same `original` substring. -/
def corDupB : Correction :=
  { original := "ab".toList, corrected := "y".toList, type := "t".toList,
    explanation := none, startIndex := 9, endIndex := 11 }

/-- Scenario E correction, whose `original` does not occur in the
canonical text. -/
def corE : Correction :=
  { original := "xyz".toList, corrected := "abc".toList, type := "t".toList,
    explanation := none, startIndex := 0, endIndex := 0 }

/-- An inner text that is the whole of a correction tag except its closing
tag. -/
def innerAlias : List Char :=
  "<correction original=\"a\" corrected=\"b\" type=\"t\">x".toList

/-- C8: for every string `t`, the diff extractor applied to the identical
pair returns an empty corrections list and a text equal to `t` (the
result's text field `originalText`), without running the diff — the
statement quantifies over the word-diff function, so the result cannot
depend on it. -/
theorem extract_identical_pair (dw : List Char → List Char → List DiffPart)
    (t : List Char) :
    analyzeDifferencesWith dw t t = { corrections := [], originalText := t } := by
  simp [analyzeDifferencesWith]

/-- C3 counterexample: on Scenario A the extractor classifies the change
as `"spelling"` (the similarity rule fires before the grammar rule), not
`"grammar"` as claimed. -/
theorem scenarioA_type_counterexample :
    ((analyzeDifferences "He go home.".toList "He goes home.".toList).corrections.map
      fun c => c.type) ≠ ["grammar".toList] := by
  decide

/-- C3 amended: `analyzeDifferences("He go home.", "He goes home.")`
returns exactly one correction, with original `"go"`, corrected `"goes"`,
type `"spelling"`, startIndex 3, and endIndex 5. -/
theorem scenarioA_result :
    ((analyzeDifferences "He go home.".toList "He goes home.".toList).corrections.map
      fun c => (c.original, c.corrected, c.type, c.startIndex, c.endIndex)) =
      [("go".toList, "goes".toList, "spelling".toList, 3, 5)] := by
  decide

theorem subIndex_occurs {pat s : List Char} {i : Nat}
    (h : subIndex pat s = some i) : occursAt pat s i := by
  induction s generalizing i with
  | nil =>
    unfold subIndex at h
    split at h
    · rename_i hp
      injection h with h'
      subst h'
      exact hp
    · cases h
  | cons c t ih =>
    unfold subIndex at h
    split at h
    · rename_i hp
      injection h with h'
      subst h'
      exact hp
    · rcases Option.map_eq_some'.mp h with ⟨i', hi', rfl⟩
      exact ih hi'

theorem subIndex_min {pat s : List Char} {i : Nat}
    (h : subIndex pat s = some i) : ∀ j < i, ¬ occursAt pat s j := by
  induction s generalizing i with
  | nil =>
    unfold subIndex at h
    split at h
    · injection h with h'
      subst h'
      omega
    · cases h
  | cons c t ih =>
    unfold subIndex at h
    split at h
    · injection h with h'
      subst h'
      omega
    · rcases Option.map_eq_some'.mp h with ⟨i', hi', rfl⟩
      intro j hj
      cases j with
      | zero =>
        rename_i hp
        exact fun hcontra => hp hcontra
      | succ j' =>
        exact ih hi' j' (by omega)

theorem subIndex_none_no_occur {pat s : List Char}
    (h : subIndex pat s = none) : ∀ j, ¬ occursAt pat s j := by
  induction s with
  | nil =>
    unfold subIndex at h
    split at h
    · cases h
    · rename_i hp
      intro j hj
      exact hp (by simpa [occursAt, List.drop_nil] using hj)
  | cons c t ih =>
    unfold subIndex at h
    split at h
    · cases h
    · rename_i hp
      have ht : subIndex pat t = none := by
        cases hsub : subIndex pat t with
        | none => rfl
        | some k => rw [hsub] at h; cases h
      intro j
      cases j with
      | zero => exact fun hcontra => hp hcontra
      | succ j' => exact ih ht j'

theorem occursAt_take {pat s : List Char} {i : Nat} (h : occursAt pat s i) :
    (s.drop i).take pat.length = pat := by
  have hp : pat <+: s.drop i := by
    exact List.isPrefixOf_iff_prefix.mp h
  exact (List.prefix_iff_eq_take.mp hp).symm

theorem occursAt_reconstruct {pat s : List Char} {i : Nat} (h : occursAt pat s i) :
    s = s.take i ++ pat ++ s.drop (i + pat.length) := by
  have hp : pat <+: s.drop i := List.isPrefixOf_iff_prefix.mp h
  rcases hp with ⟨r, hr⟩
  have hdrop : s.drop (i + pat.length) = r := by
    have : (s.drop i).drop pat.length = r := by
      rw [← hr, List.drop_left]
    rw [← this, List.drop_drop, Nat.add_comm]
  rw [hdrop, List.append_assoc, hr, List.take_append_drop]

/-- C7: the offset reconciler never fails: it preserves the length and
order of the corrections and all their non-index fields, re-anchors each
correction at the first occurrence of its `original` in the canonical
text, and degrades to the default span `[0, len(original))` when the
`original` does not occur at all. -/
theorem recalculatePositions_spec (cleanText : List Char)
    (corrections : List Correction) (xmlText : List Char) :
    (recalculatePositions cleanText corrections xmlText).length = corrections.length ∧
    ∀ (i : Nat) (c : Correction), corrections[i]? = some c →
      ∃ c' : Correction,
        (recalculatePositions cleanText corrections xmlText)[i]? = some c' ∧
        c'.original = c.original ∧ c'.corrected = c.corrected ∧
        c'.type = c.type ∧ c'.explanation = c.explanation ∧
        ((∃ p, occursAt c.original cleanText p ∧
            (∀ q < p, ¬ occursAt c.original cleanText q) ∧
            c'.startIndex = (p : Int) ∧
            c'.endIndex = (p : Int) + c.original.length) ∨
          ((∀ p, ¬ occursAt c.original cleanText p) ∧
            c'.startIndex = 0 ∧ c'.endIndex = (c.original.length : Int))) := by
  constructor
  · simp [recalculatePositions]
  · intro i c hc
    cases hsub : subIndex c.original cleanText with
    | some p =>
      refine ⟨⟨c.original, c.corrected, c.type, c.explanation,
          (p : Int), (p : Int) + c.original.length⟩, ?_,
        rfl, rfl, rfl, rfl,
        Or.inl ⟨p, subIndex_occurs hsub, subIndex_min hsub, rfl, rfl⟩⟩
      simp [recalculatePositions, List.getElem?_map, hc, hsub]
    | none =>
      refine ⟨⟨c.original, c.corrected, c.type, c.explanation,
          0, (c.original.length : Int)⟩, ?_,
        rfl, rfl, rfl, rfl,
        Or.inr ⟨subIndex_none_no_occur hsub, rfl, rfl⟩⟩
      simp [recalculatePositions, List.getElem?_map, hc, hsub]

/-- Witness: Scenario E — reconciling a correction whose original `"xyz"`
is absent from `"Hello world"` returns the degraded span `[0, 3)`. -/
theorem recalculatePositions_witness :
    ((recalculatePositions "Hello world".toList [corE] [])[0]?.map
      fun c' => (c'.startIndex, c'.endIndex)) = some (0, 3) := by
  obtain ⟨c', hc', _, _, _, _, hspan⟩ :=
    (recalculatePositions_spec "Hello world".toList [corE] []).2 0 corE rfl
  rcases hspan with ⟨p, hp, _, _⟩ | ⟨_, h0, hlen⟩
  · exact absurd hp (subIndex_none_no_occur (by decide) p)
  · rw [hc']
    simp only [Option.map_some']
    rw [h0, hlen]
    decide

theorem hasPunct_iff (s : List Char) : hasPunct s = true ↔ specHasPunct s := by
  simp only [hasPunct, specHasPunct, List.any_eq_true, Bool.or_eq_true,
    decide_eq_true_eq, List.mem_cons, List.mem_singleton, List.not_mem_nil, or_false]
  constructor <;> rintro ⟨x, hx, hor⟩ <;> exact ⟨x, hx, by tauto⟩

theorem grammar_iff (o c : List Char) :
    isGrammarChange o c = true ↔ specGrammar o c := by
  simp [isGrammarChange, specGrammar, List.any_eq_true]

theorem similar_iff (w1 w2 : List Char) :
    areWordsSimilar w1 w2 = true ↔ specSimilar w1 w2 := by
  unfold areWordsSimilar specSimilar
  by_cases hlen : ((w1.length : Int) - (w2.length : Int)).natAbs ≤ 2
  · rw [if_pos hlen]
    simp only [hlen, true_and, decide_eq_true_eq, gt_iff_lt]
    rw [show (min (w1.length : ℚ) (w2.length : ℚ)) =
        ((min w1.length w2.length : Nat) : ℚ) from (Nat.cast_min w1.length w2.length).symm]
    have hccle : (w1.zip w2).countP (fun p => decide (p.1 = p.2)) ≤
        min w1.length w2.length := by
      have h1 := List.countP_le_length (p := fun p : Char × Char => decide (p.1 = p.2))
        (l := w1.zip w2)
      have h2 : (w1.zip w2).length = min w1.length w2.length := List.length_zip w1 w2
      omega
    generalize hC : (w1.zip w2).countP (fun p => decide (p.1 = p.2)) = cc at hccle
    generalize hM : min w1.length w2.length = m at hccle ⊢
    rcases Nat.eq_zero_or_pos m with hm0 | hmpos
    · subst hm0
      have hcc0 : cc = 0 := by omega
      subst hcc0
      norm_num
    · have hmq : (0 : ℚ) < (m : ℚ) := by exact_mod_cast hmpos
      rw [lt_div_iff hmq]
      constructor
      · intro h
        have hq : (3 : ℚ) * m < 5 * cc := by exact_mod_cast h
        nlinarith
      · intro h
        have hq : (3 : ℚ) * m < 5 * cc := by nlinarith
        exact_mod_cast hq
  · rw [if_neg hlen]
    simp [hlen]

/-- C4: the classifier is a deterministic total function agreeing with the
spec's first-match-wins cascade (punctuation from `{.,;:!?}`, equal
lowercasings, similarity with length delta at most 2 and aligned-match
fraction strictly above 0.6 as an exact rational, closed-class grammar
patterns, else word choice), and its label is always drawn from the
enumerated set (the enum's `word-choice` is rendered `"word choice"`). -/
theorem determineErrorType_spec (original corrected : List Char) :
    determineErrorType original corrected =
      labelString (specClassify original corrected) ∧
    determineErrorType original corrected ∈ labelStrings := by
  have hmain : determineErrorType original corrected =
      labelString (specClassify original corrected) := by
    unfold determineErrorType specClassify
    simp only [Bool.or_eq_true, hasPunct_iff, grammar_iff, similar_iff]
    split_ifs <;> rfl
  refine ⟨hmain, ?_⟩
  rw [hmain]
  cases specClassify original corrected <;> decide

theorem pairwise_end_start :
    ∀ cs : List Correction,
      cs.Chain' (fun a b => a.endIndex ≤ b.startIndex) →
      (∀ c ∈ cs, c.startIndex ≤ c.endIndex) →
      cs.Pairwise fun a b => a.endIndex ≤ b.startIndex := by
  intro cs
  induction cs with
  | nil => intro _ _; exact List.Pairwise.nil
  | cons a l ih =>
    intro hch he
    rw [List.chain'_cons'] at hch
    obtain ⟨hhd, hchl⟩ := hch
    have hpl := ih hchl fun c hc => he c (List.mem_cons_of_mem _ hc)
    refine List.pairwise_cons.mpr ⟨?_, hpl⟩
    intro b hb
    cases l with
    | nil => cases hb
    | cons x l' =>
      have hax : a.endIndex ≤ x.startIndex := hhd x rfl
      rcases List.mem_cons.mp hb with rfl | hb'
      · exact hax
      · have hxb : x.endIndex ≤ b.startIndex := (List.pairwise_cons.mp hpl).1 b hb'
        have hx : x.startIndex ≤ x.endIndex := he x (by simp)
        omega

theorem spansSortedDisjoint_of_chain (cs : List Correction)
    (h1 : cs.Chain' fun a b => a.endIndex ≤ b.startIndex)
    (h2 : ∀ c ∈ cs, c.startIndex ≤ c.endIndex) : spansSortedDisjoint cs := by
  have hpw := pairwise_end_start cs h1 h2
  constructor
  · induction cs with
    | nil => exact List.chain'_nil
    | cons a l ih =>
      rw [List.chain'_cons'] at h1 ⊢
      refine ⟨?_, ih h1.2 (fun c hc => h2 c (List.mem_cons_of_mem _ hc))
        (pairwise_end_start l h1.2 fun c hc => h2 c (List.mem_cons_of_mem _ hc))⟩
      intro b hb
      have h1b := h1.1 b hb
      have h2a := h2 a (by simp)
      omega
  · refine hpw.imp ?_
    intro a b hab
    intro x hx
    omega

theorem buildCorrections_spans :
    ∀ parts cur,
      (∀ c ∈ buildCorrections parts cur,
        (cur : Int) ≤ c.startIndex ∧ c.startIndex ≤ c.endIndex) ∧
      (buildCorrections parts cur).Chain' fun a b => a.endIndex ≤ b.startIndex := by
  intro parts cur
  induction parts, cur using buildCorrections.induct with
  | case1 cur => simp [buildCorrections]
  | case2 p cur h =>
    constructor
    · intro c hc
      simp [buildCorrections, h] at hc
      subst hc
      constructor <;> simp
    · simp [buildCorrections, h]
  | case3 p cur h1 h2 =>
    constructor
    · intro c hc
      simp [buildCorrections, h1, h2] at hc
      subst hc
      constructor <;> simp
    · simp [buildCorrections, h1, h2]
  | case4 p cur h1 h2 =>
    constructor
    · intro c hc
      simp [buildCorrections, h1, h2] at hc
    · simp [buildCorrections, h1, h2]
  | case5 p q rest cur h1 h2 ih =>
    obtain ⟨ihb, ihc⟩ := ih
    constructor
    · intro c hc
      simp only [buildCorrections, if_pos h1, if_pos h2, List.mem_cons] at hc
      rcases hc with rfl | hc
      · constructor <;> simp
      · have hb := (ihb c hc).1
        have hb2 := (ihb c hc).2
        push_cast at hb
        constructor
        · omega
        · exact hb2
    · simp only [buildCorrections, if_pos h1, if_pos h2]
      rw [List.chain'_cons']
      refine ⟨?_, ihc⟩
      intro b hb
      have hmem := List.mem_of_mem_head? hb
      have hstart := (ihb b hmem).1
      push_cast at hstart ⊢
      omega
  | case6 p q rest cur h1 h2 ih =>
    obtain ⟨ihb, ihc⟩ := ih
    constructor
    · intro c hc
      simp only [buildCorrections, if_pos h1, if_neg h2, List.mem_cons] at hc
      rcases hc with rfl | hc
      · constructor <;> simp
      · have hb := (ihb c hc).1
        have hb2 := (ihb c hc).2
        push_cast at hb
        constructor
        · omega
        · exact hb2
    · simp only [buildCorrections, if_pos h1, if_neg h2]
      rw [List.chain'_cons']
      refine ⟨?_, ihc⟩
      intro b hb
      have hmem := List.mem_of_mem_head? hb
      have hstart := (ihb b hmem).1
      push_cast at hstart ⊢
      omega
  | case7 p q rest cur h1 h2 ih =>
    obtain ⟨ihb, ihc⟩ := ih
    constructor
    · intro c hc
      simp only [buildCorrections, if_neg h1, if_pos h2, List.mem_cons] at hc
      rcases hc with rfl | hc
      · constructor <;> simp
      · exact ihb c hc
    · simp only [buildCorrections, if_neg h1, if_pos h2]
      rw [List.chain'_cons']
      refine ⟨?_, ihc⟩
      intro b hb
      have hmem := List.mem_of_mem_head? hb
      have hstart := (ihb b hmem).1
      exact hstart
  | case8 p q rest cur h1 h2 ih =>
    obtain ⟨ihb, ihc⟩ := ih
    constructor
    · intro c hc
      simp only [buildCorrections, if_neg h1, if_neg h2] at hc
      have hb := (ihb c hc).1
      have hb2 := (ihb c hc).2
      push_cast at hb
      constructor
      · omega
      · exact hb2
    · simp only [buildCorrections, if_neg h1, if_neg h2]
      exact ihc

theorem litAt_spec {s lit : List Char} {p q : Nat} (h : litAt s lit p = some q) :
    q = p + lit.length ∧ lit.isPrefixOf (s.drop p) := by
  unfold litAt at h
  split at h
  · rename_i hp
    injection h with h'
    exact ⟨h'.symm, hp⟩
  · cases h

theorem ws1_gt {s : List Char} {p q : Nat} (h : ws1 s p = some q) : p < q := by
  simp only [ws1] at h
  split at h
  · cases h
  · rename_i hn
    injection h with h'
    omega

theorem quoted_gt {s : List Char} {p : Nat} {vq : List Char × Nat}
    (h : quoted s p = some vq) : p < vq.2 := by
  simp only [quoted] at h
  split at h
  · injection h with h'
    subst h'
    omega
  · cases h

theorem attrAt_gt {s lit : List Char} {p : Nat} {vq : List Char × Nat}
    (h : attrAt s lit p = some vq) : p < vq.2 := by
  unfold attrAt at h
  rcases Option.bind_eq_some.mp h with ⟨p1, h1, h⟩
  rcases Option.bind_eq_some.mp h with ⟨p2, h2, h⟩
  have hw := ws1_gt h1
  have hl := (litAt_spec h2).1
  have hq := quoted_gt h
  omega

theorem toGt_spec {s : List Char} {p q : Nat} (h : toGt s p = some q) :
    p < q ∧ q ≤ s.length := by
  simp only [toGt] at h
  split at h
  · rename_i hlt
    injection h with h'
    omega
  · cases h

theorem lazyClose_spec {s : List Char} {p j : Nat} (h : lazyClose s p = some j) :
    p ≤ j ∧ occursAt closeTag s j := by
  unfold lazyClose at h
  have hmem := List.mem_of_find?_eq_some h
  have hpred := List.find?_some h
  simp only [Bool.and_eq_true] at hpred
  constructor
  · have := List.mem_range'_1.mp hmem
    omega
  · exact hpred.1

theorem finishTag_spec {s : List Char} {i : Nat} {o c t : List Char}
    {expl : Option (List Char)} {p4 : Nat} {m : TagMatch}
    (h : finishTag s i o c t expl p4 = some m) :
    ∃ p5 j, toGt s p4 = some p5 ∧ lazyClose s p5 = some j ∧
      m = ⟨i, (s.drop i).take (j + closeTag.length - i), o, c, t, expl,
        (s.drop p5).take (j - p5)⟩ := by
  unfold finishTag at h
  rcases Option.bind_eq_some.mp h with ⟨p5, h5, h⟩
  rcases Option.map_eq_some'.mp h with ⟨j, hj, hm⟩
  exact ⟨p5, j, h5, hj, hm.symm⟩

theorem tryMatchAt_spec {s : List Char} {i : Nat} {m : TagMatch}
    (h : tryMatchAt s i = some m) :
    m.index = i ∧ occursAt m.full s i ∧ i + m.full.length ≤ s.length ∧
    ∃ pre, m.full = pre ++ m.textContent ++ closeTag := by
  unfold tryMatchAt at h
  rcases Option.bind_eq_some.mp h with ⟨p0, h0, h⟩
  rcases Option.bind_eq_some.mp h with ⟨op, h1, h⟩
  rcases Option.bind_eq_some.mp h with ⟨cp, h2, h⟩
  rcases Option.bind_eq_some.mp h with ⟨tp, h3, h⟩
  have hp0 := (litAt_spec h0).1
  have hlit : ("<correction".toList).length = 11 := by decide
  have hop := attrAt_gt h1
  have hcp := attrAt_gt h2
  have htp := attrAt_gt h3
  have key : ∀ (expl : Option (List Char)) (p4 : Nat), i < p4 →
      finishTag s i op.1 cp.1 tp.1 expl p4 = some m →
      m.index = i ∧ occursAt m.full s i ∧ i + m.full.length ≤ s.length ∧
      ∃ pre, m.full = pre ++ m.textContent ++ closeTag := by
    intro expl p4 hip4 hf
    obtain ⟨p5, j, htg, hlc, hm⟩ := finishTag_spec hf
    obtain ⟨hp45, hp5len⟩ := toGt_spec htg
    obtain ⟨hp5j, hclose⟩ := lazyClose_spec hlc
    have hjlen : j + closeTag.length ≤ s.length := by
      have hle := List.IsPrefix.length_le (List.isPrefixOf_iff_prefix.mp hclose)
      simp only [List.length_drop] at hle
      have hct : closeTag.length = 13 := by decide
      omega
    subst hm
    refine ⟨rfl, ?_, ?_, ?_⟩
    · exact List.isPrefixOf_iff_prefix.mpr (List.take_prefix _ _)
    · simp only [List.length_take, List.length_drop]
      omega
    · have hij : i < p5 := by omega
      refine ⟨(s.drop i).take (p5 - i), ?_⟩
      have harith : j + closeTag.length - i =
          (p5 - i) + ((j - p5) + closeTag.length) := by omega
      rw [harith, List.take_add, List.take_add]
      have hd1 : (s.drop i).drop (p5 - i) = s.drop p5 := by
        rw [List.drop_drop]
        congr 1
        omega
      rw [hd1]
      have hd2 : (s.drop p5).drop (j - p5) = s.drop j := by
        rw [List.drop_drop]
        congr 1
        omega
      rw [hd2]
      rw [occursAt_take hclose]
      simp [List.append_assoc]
  have hi_tp : i < tp.2 := by omega
  cases hexp : attrAt s ("explanation=\"".toList) tp.2 with
  | some ep =>
    simp only [hexp] at h
    cases hfe : finishTag s i op.1 cp.1 tp.1 (some ep.1) ep.2 with
    | some m2 =>
      simp only [hfe, Option.some.injEq] at h
      subst h
      exact key _ _ (by have := attrAt_gt hexp; omega) hfe
    | none =>
      simp only [hfe] at h
      exact key _ _ hi_tp h
  | none =>
    simp only [hexp] at h
    exact key _ _ hi_tp h

theorem findFromAux_spec {s : List Char} :
    ∀ {k pos : Nat} {m : TagMatch}, findFromAux s k pos = some m →
      pos ≤ m.index ∧ tryMatchAt s m.index = some m := by
  intro k
  induction k with
  | zero => intro pos m h; cases h
  | succ k ih =>
    intro pos m h
    unfold findFromAux at h
    cases htry : tryMatchAt s pos with
    | some m2 =>
      simp only [htry, Option.some.injEq] at h
      subst h
      have hidx := (tryMatchAt_spec htry).1
      rw [hidx]
      exact ⟨Nat.le_refl _, htry⟩
    | none =>
      simp only [htry] at h
      have hih := ih h
      exact ⟨by omega, hih.2⟩

theorem scanAllAux_matchesFrom (s : List Char) :
    ∀ fuel pos, matchesFrom s pos (scanAllAux s fuel pos) := by
  intro fuel
  induction fuel with
  | zero => intro pos; simp [scanAllAux, matchesFrom]
  | succ fuel ih =>
    intro pos
    unfold scanAllAux
    cases hf : findFrom s pos with
    | none => simp [matchesFrom]
    | some m =>
      obtain ⟨hge, htry⟩ := findFromAux_spec hf
      obtain ⟨_, hocc, hlen, hpre⟩ := tryMatchAt_spec htry
      exact ⟨hge, hocc, hlen, hpre, ih (m.index + m.full.length)⟩

theorem regexLoop_ordered {s : List Char} :
    ∀ (ms : List TagMatch) (clean : List Char) (off : Int) (q : Nat),
      matchesFrom s q ms →
      (∀ c ∈ (regexLoop ms clean off).1,
        (q : Int) - off ≤ c.startIndex ∧ c.startIndex ≤ c.endIndex) ∧
      (regexLoop ms clean off).1.Chain' fun a b => a.endIndex ≤ b.startIndex := by
  intro ms
  induction ms with
  | nil => intro clean off q _; simp [regexLoop]
  | cons m rest ih =>
    intro clean off q hmf
    obtain ⟨hq, _, _, _, hrest⟩ := hmf
    have ihr := ih (replaceFirst clean m.full m.textContent)
      (off + ((m.full.length : Int) - (m.textContent.length : Int)))
      (m.index + m.full.length) hrest
    constructor
    · intro c hc
      simp only [regexLoop, List.mem_cons] at hc
      rcases hc with rfl | hc
      · constructor
        · simp only []
          push_cast
          omega
        · simp only []
          push_cast
          omega
      · have hb := (ihr.1 c hc).1
        have hb2 := (ihr.1 c hc).2
        push_cast at hb
        constructor
        · omega
        · exact hb2
    · simp only [regexLoop]
      rw [List.chain'_cons']
      refine ⟨?_, ihr.2⟩
      intro b hb
      have hmem := List.mem_of_mem_head? hb
      have hstart := (ihr.1 b hmem).1
      simp only []
      push_cast at hstart ⊢
      omega

/-- C2 corrected: the extractor's correction-building loop (hence
`analyzeDifferences` for any word-diff output) and the regex markup parser
always emit corrections sorted ascending by `startIndex` with pairwise
non-overlapping spans; the offset reconciler `recalculatePositions` does
not guarantee this — duplicate `original` substrings are all re-anchored
to the same first occurrence, producing overlapping (and possibly
unsorted) spans. -/
theorem extractor_parser_sorted_disjoint :
    (∀ (dw : List Char → List Char → List DiffPart) (a b : List Char),
      spansSortedDisjoint (analyzeDifferencesWith dw a b).corrections) ∧
    (∀ x : List Char, spansSortedDisjoint (parseXmlWithRegex x).corrections) := by
  constructor
  · intro dw a b
    unfold analyzeDifferencesWith
    split
    · simp [spansSortedDisjoint]
    · obtain ⟨hb, hc⟩ := buildCorrections_spans (dw a b) 0
      exact spansSortedDisjoint_of_chain _ hc fun c h => (hb c h).2
  · intro x
    have hmf := scanAllAux_matchesFrom x (x.length + 1) 0
    obtain ⟨hb, hc⟩ := regexLoop_ordered (scanAll x) x 0 0 hmf
    exact spansSortedDisjoint_of_chain _ hc fun c h => (hb c h).2

/-- C2 counterexample: reconciling two corrections that share the
`original` substring `"ab"` against the clean text `"ab"` yields two
identical overlapping spans `[0, 2)` — the reconciler's output violates
pairwise non-overlap. -/
theorem reconciler_overlap_counterexample :
    ¬ spansSortedDisjoint (recalculatePositions "ab".toList [corDupA, corDupB] []) := by
  intro h
  have h2 := h.2
  rw [show recalculatePositions "ab".toList [corDupA, corDupB] [] =
      [⟨"ab".toList, "x".toList, "t".toList, none, 0, 2⟩,
       ⟨"ab".toList, "y".toList, "t".toList, none, 0, 2⟩] from by decide] at h2
  have hd := (List.pairwise_cons.mp h2).1 _ (List.mem_singleton.mpr rfl)
  exact hd 0 ⟨by norm_num, by norm_num, by norm_num, by norm_num⟩

theorem take_min_len (l : List Char) (n : Nat) : l.take (min n l.length) = l.take n := by
  rcases Nat.le_total n l.length with h | h
  · rw [Nat.min_eq_left h]
  · rw [Nat.min_eq_right h, List.take_length, List.take_of_length_le h]

theorem drop_min_len (l : List Char) (n : Nat) : l.drop (min n l.length) = l.drop n := by
  rcases Nat.le_total n l.length with h | h
  · rw [Nat.min_eq_left h]
  · rw [Nat.min_eq_right h, List.drop_length, (List.drop_eq_nil_of_le h).symm]

theorem jsResolve_nonneg {len : Nat} {i : Int} (h : 0 ≤ i) :
    jsResolve len i = min i.toNat len := by
  unfold jsResolve
  rw [if_neg (by omega)]

theorem jsSlice_zero (s : List Char) (e : Int) (h : 0 ≤ e) :
    jsSlice s 0 e = s.take e.toNat := by
  unfold jsSlice
  rw [jsResolve_nonneg h, jsResolve_nonneg (le_refl 0)]
  simp [take_min_len]

theorem jsSlice_to_len (s : List Char) (a : Int) (h : 0 ≤ a) :
    jsSlice s a s.length = s.drop a.toNat := by
  unfold jsSlice
  rw [jsResolve_nonneg h, jsResolve_nonneg (Int.natCast_nonneg s.length)]
  rw [Int.toNat_natCast, Nat.min_self, List.take_length, drop_min_len]

theorem jsSlice_seg (s : List Char) (a : Int) (L : Nat) (h : 0 ≤ a) :
    jsSlice s a (a + L) = (s.drop a.toNat).take L := by
  unfold jsSlice
  rw [jsResolve_nonneg h, jsResolve_nonneg (by omega)]
  have htn : (a + (L : Int)).toNat = a.toNat + L := by omega
  rw [htn]
  rcases Nat.le_total a.toNat s.length with hle | hgt
  · rw [Nat.min_eq_left hle, List.drop_take]
    rw [show min (a.toNat + L) s.length - a.toNat = min L ((s.drop a.toNat).length) from by
      simp only [List.length_drop]; omega]
    exact take_min_len _ _
  · rw [Nat.min_eq_right hgt]
    rw [List.drop_eq_nil_of_le (by simp only [List.length_take]; omega),
      List.drop_eq_nil_of_le hgt]
    simp

/-- C6: when the slice test fails, the aligner falls back to the first
occurrence of `original` in the remaining text (`subIndex` returns the
least occurrence, witnessed by the two occurrence conjuncts); when
`original` does not occur at all, the correction is skipped wholesale —
no segment, no cursor movement, no failure (`alignOne st c = st`); and a
correction with a wrong `startIndex` whose `original` occurs in the
remaining text produces the same visible state as the correction with
the correct index (`st.processed + f`). -/
theorem aligner_drift (st : AlignState) (c : Correction)
    (hmis : actualSlice st c ≠ c.original) :
    (subIndex c.original st.remaining = none → alignOne st c = st) ∧
    (∀ f, subIndex c.original st.remaining = some f →
      occursAt c.original st.remaining f ∧
      (∀ j < f, ¬ occursAt c.original st.remaining j) ∧
      ∀ c₂ : Correction, c₂.original = c.original → c₂.corrected = c.corrected →
        c₂.startIndex = st.processed + f →
        stateView (alignOne st c) = stateView (alignOne st c₂)) := by
  constructor
  · intro hnone
    simp only [alignOne]
    rw [if_neg hmis, hnone]
  · intro f hf
    refine ⟨subIndex_occurs hf, subIndex_min hf, ?_⟩
    intro c₂ ho hc hst
    have hocc := subIndex_occurs hf
    have hexp : c₂.startIndex - st.processed = (f : Int) := by rw [hst]; ring
    have hmatch : actualSlice st c₂ = c₂.original := by
      unfold actualSlice
      rw [ho, hexp, jsSlice_seg _ _ _ (Int.natCast_nonneg f), Int.toNat_natCast]
      exact occursAt_take hocc
    have hL : alignOne st c =
        { remaining := st.remaining.drop (f + c.original.length)
          processed := st.processed + (f : Int) + c.original.length
          segs := st.segs ++
            (if 0 < f then [Seg.lit (st.remaining.take f)] else []) ++ [Seg.ann c]
          negMatch := st.negMatch } := by
      simp only [alignOne]
      rw [if_neg hmis, hf]
    have hR : alignOne st c₂ =
        { remaining := jsSlice st.remaining
            ((c₂.startIndex - st.processed) + c₂.original.length) st.remaining.length
          processed := st.processed + (c₂.startIndex - st.processed) + c₂.original.length
          segs := st.segs ++
            (if 0 < c₂.startIndex - st.processed then
              [Seg.lit (jsSlice st.remaining 0 (c₂.startIndex - st.processed))]
             else []) ++ [Seg.ann c₂]
          negMatch := st.negMatch || decide (c₂.startIndex - st.processed < 0) } := by
      simp only [alignOne]
      rw [if_pos hmatch]
    rw [hL, hR]
    unfold stateView
    simp only [Prod.mk.injEq]
    refine ⟨?_, ?_, ?_⟩
    · -- the segment views agree
      simp only [List.map_append]
      have hlit : (if 0 < f then [Seg.lit (st.remaining.take f)] else []).map segView =
          (if 0 < c₂.startIndex - st.processed then
            [Seg.lit (jsSlice st.remaining 0 (c₂.startIndex - st.processed))]
           else []).map segView := by
        rw [hexp]
        rcases Nat.eq_zero_or_pos f with rfl | hfpos
        · norm_num
        · rw [if_pos hfpos, if_pos (by exact_mod_cast hfpos)]
          rw [jsSlice_zero _ _ (Int.natCast_nonneg f), Int.toNat_natCast]
      rw [hlit]
      simp [segView, ho, hc]
    · -- the remaining text agrees
      rw [ho, hexp]
      rw [show (f : Int) + (c.original.length : Int) =
          ((f + c.original.length : Nat) : Int) from by push_cast; ring]
      rw [jsSlice_to_len _ _ (Int.natCast_nonneg _), Int.toNat_natCast]
    · -- the cursor agrees
      rw [ho, hexp]

/-- Witness for the drift fallback: Scenario D (startIndex wrongly 0)
mismatches at its expected offset, `"have went"` is found at offset 2,
and the visible result equals Scenario C's (correct startIndex 2). -/
theorem aligner_drift_witness :
    actualSlice { remaining := textI, processed := 0, segs := [], negMatch := false }
        corD ≠ corD.original ∧
    stateView (alignOne
        { remaining := textI, processed := 0, segs := [], negMatch := false } corD) =
      stateView (alignOne
        { remaining := textI, processed := 0, segs := [], negMatch := false } corC) := by
  refine ⟨by decide, ?_⟩
  exact ((aligner_drift
    { remaining := textI, processed := 0, segs := [], negMatch := false } corD
    (by decide)).2 2 (by decide)).2.2 corC (by decide) (by decide) (by decide)

theorem segConcat_append (a b : List Seg) :
    segConcat (a ++ b) = segConcat a ++ segConcat b := by
  simp [segConcat]

theorem alignOne_negMatch_mono {st : AlignState} {c : Correction}
    (h : st.negMatch = true) : (alignOne st c).negMatch = true := by
  by_cases hm : actualSlice st c = c.original
  · simp only [alignOne]
    rw [if_pos hm]
    simp [h]
  · simp only [alignOne]
    rw [if_neg hm]
    cases hf : subIndex c.original st.remaining <;> simp [h]

theorem foldl_negMatch_mono :
    ∀ (cs : List Correction) (st : AlignState), st.negMatch = true →
      (cs.foldl alignOne st).negMatch = true := by
  intro cs
  induction cs with
  | nil => intro st h; exact h
  | cons c cs ih =>
    intro st h
    rw [List.foldl_cons]
    exact ih _ (alignOne_negMatch_mono h)

theorem alignOne_inv {text : List Char} {st : AlignState} {c : Correction}
    (hP : segConcat st.segs ++ st.remaining = text)
    (hneg : (alignOne st c).negMatch = false) :
    segConcat (alignOne st c).segs ++ (alignOne st c).remaining = text := by
  by_cases hm : actualSlice st c = c.original
  · have hA : alignOne st c =
        { remaining := jsSlice st.remaining
            ((c.startIndex - st.processed) + c.original.length) st.remaining.length
          processed := st.processed + (c.startIndex - st.processed) + c.original.length
          segs := st.segs ++
            (if 0 < c.startIndex - st.processed then
              [Seg.lit (jsSlice st.remaining 0 (c.startIndex - st.processed))]
             else []) ++ [Seg.ann c]
          negMatch := st.negMatch ||
            decide (c.startIndex - st.processed < 0) } := by
      simp only [alignOne]
      rw [if_pos hm]
    rw [hA] at hneg
    simp only [Bool.or_eq_false_iff, decide_eq_false_iff_not, not_lt] at hneg
    have hexp0 : (0 : Int) ≤ c.startIndex - st.processed := hneg.2
    have hcast : c.startIndex - st.processed =
        (((c.startIndex - st.processed).toNat : Nat) : Int) :=
      (Int.toNat_of_nonneg hexp0).symm
    generalize he : (c.startIndex - st.processed).toNat = e at hcast
    unfold actualSlice at hm
    rw [hcast, jsSlice_seg _ _ _ (Int.natCast_nonneg e), Int.toNat_natCast] at hm
    have hocc : occursAt c.original st.remaining e := by
      unfold occursAt
      exact List.isPrefixOf_iff_prefix.mpr (hm ▸ List.take_prefix _ _)
    have hkey : segConcat ((st.segs ++
          (if 0 < c.startIndex - st.processed then
            [Seg.lit (jsSlice st.remaining 0 (c.startIndex - st.processed))]
           else [])) ++ [Seg.ann c]) ++
        jsSlice st.remaining
          ((c.startIndex - st.processed) + c.original.length) st.remaining.length =
        text := by
      rw [hcast]
      rw [show ((e : Int) + (c.original.length : Int)) =
          ((e + c.original.length : Nat) : Int) from by push_cast; ring]
      rw [jsSlice_to_len _ _ (Int.natCast_nonneg _), Int.toNat_natCast]
      rw [jsSlice_zero _ _ (Int.natCast_nonneg e), Int.toNat_natCast]
      rw [segConcat_append, segConcat_append]
      have hlit : segConcat
          (if 0 < (e : Int) then [Seg.lit (st.remaining.take e)] else []) =
          st.remaining.take e := by
        rcases Nat.eq_zero_or_pos e with h0 | hpos
        · rw [h0]
          norm_num [segConcat]
        · rw [if_pos (by exact_mod_cast hpos)]
          simp [segConcat, segText]
      have hann : segConcat [Seg.ann c] = c.original := by simp [segConcat, segText]
      rw [hlit, hann, ← hP]
      rw [List.append_assoc, List.append_assoc]
      congr 1
      conv_rhs => rw [occursAt_reconstruct hocc]
      rw [List.append_assoc]
    rw [hA]
    exact hkey
  · cases hf : subIndex c.original st.remaining with
    | none =>
      have hA : alignOne st c = st := by
        simp only [alignOne]
        rw [if_neg hm, hf]
      rw [hA]
      exact hP
    | some f =>
      have hA : alignOne st c =
          { remaining := st.remaining.drop (f + c.original.length)
            processed := st.processed + (f : Int) + c.original.length
            segs := st.segs ++
              (if 0 < f then [Seg.lit (st.remaining.take f)] else []) ++ [Seg.ann c]
            negMatch := st.negMatch } := by
        simp only [alignOne]
        rw [if_neg hm, hf]
      have hocc := subIndex_occurs hf
      have hkey : segConcat ((st.segs ++
            (if 0 < f then [Seg.lit (st.remaining.take f)] else [])) ++
            [Seg.ann c]) ++
          st.remaining.drop (f + c.original.length) = text := by
        rw [segConcat_append, segConcat_append]
        have hlit : segConcat
            (if 0 < f then [Seg.lit (st.remaining.take f)] else []) =
            st.remaining.take f := by
          rcases Nat.eq_zero_or_pos f with rfl | hpos
          · norm_num [segConcat]
          · rw [if_pos hpos]
            simp [segConcat, segText]
        have hann : segConcat [Seg.ann c] = c.original := by simp [segConcat, segText]
        rw [hlit, hann, ← hP]
        rw [List.append_assoc, List.append_assoc]
        congr 1
        conv_rhs => rw [occursAt_reconstruct hocc]
        rw [List.append_assoc]
      rw [hA]
      exact hkey

theorem foldl_align_inv {text : List Char} :
    ∀ (cs : List Correction) (st : AlignState),
      segConcat st.segs ++ st.remaining = text →
      (cs.foldl alignOne st).negMatch = false →
      segConcat (cs.foldl alignOne st).segs ++ (cs.foldl alignOne st).remaining =
        text := by
  intro cs
  induction cs with
  | nil => intro st hP _; exact hP
  | cons c cs ih =>
    intro st hP hneg
    rw [List.foldl_cons] at hneg ⊢
    have hmid : (alignOne st c).negMatch = false := by
      cases hmm : (alignOne st c).negMatch with
      | false => rfl
      | true => rw [foldl_negMatch_mono cs _ hmm] at hneg; cases hneg
    exact ih _ (alignOne_inv hP hmid) hneg

/-- C1 corrected: the segments of `renderTextWithHighlights` concatenate
back to exactly `text` whenever no correction's slice test succeeds at a
negative expected offset (the run's `negMatch` flag is false) — in
particular for sorted, in-range, non-overlapping corrections; when a
correction with a stale `startIndex` below the cursor (for example with an
empty `original`) does match at a negative offset, the negative-index
`slice` drops characters and the reconstruction fails, as the
counterexample shows. -/
theorem aligner_coverage (text : List Char) (corrections : List Correction)
    (h : (alignRun text corrections).negMatch = false) :
    segConcat (renderTextWithHighlights text corrections) = text := by
  unfold renderTextWithHighlights
  split
  · simp [segConcat, segText]
  · rw [segConcat_append]
    have hP : segConcat (alignRun text corrections).segs ++
        (alignRun text corrections).remaining = text :=
      foldl_align_inv _ _ (by simp [segConcat]) h
    by_cases hr : (alignRun text corrections).remaining.length > 0
    · rw [if_pos hr]
      have : segConcat [Seg.lit (alignRun text corrections).remaining] =
          (alignRun text corrections).remaining := by simp [segConcat, segText]
      rw [this]
      exact hP
    · rw [if_neg hr]
      have hre : (alignRun text corrections).remaining = [] := by
        rcases hrem : (alignRun text corrections).remaining with _ | ⟨a, l⟩
        · rfl
        · rw [hrem] at hr; simp at hr
      rw [hre] at hP
      simpa [segConcat] using hP

/-- C1 counterexample: with `corsDrop` (second correction empty-`original`
with stale startIndex 1 after 3 characters were consumed), the aligner
emits segments concatenating to `"abcef"`, dropping the `"d"` of
`"abcdef"`. -/
theorem aligner_drop_counterexample :
    segConcat (renderTextWithHighlights "abcdef".toList corsDrop) ≠
      "abcdef".toList := by
  decide

/-- Witness for the coverage theorem: Scenario C runs with no
negative-offset match and reconstructs its text exactly. -/
theorem aligner_coverage_witness :
    (alignRun textI [corC]).negMatch = false ∧
    segConcat (renderTextWithHighlights textI [corC]) = textI :=
  ⟨by decide, aligner_coverage textI [corC] (by decide)⟩

end TutorJimmy
